import Mathlib

/-!
Verification of the partition / write-admission core (`src/partition/mod.rs`)
of the Pr65 LSM key-value storage engine.

Shallow embedding conventions:

* The pluggable `Comparator` (a strict total order over user keys) is embedded
  as a `LinearOrder` instance on an abstract user-key type `K`; `Comp::compare`
  becomes `compare` of that order.
* Byte strings (`Vec<u8>` values) are `List Nat`.
* `BTreeMap<InternalKey, Vec<u8>>` is embedded as an association list whose
  `insert` replaces the binding when an equal key is present (the map
  semantics of `BTreeMap::insert`); no claim depends on iteration order.
* A Rust panic (`unwrap` of `None`, out-of-bounds index) is embedded as the
  `none` branch of an `Option`-returning function, or as the `panicked`
  outcome of `ArcPartition.write`.
* A `Condvar::wait` in a single-call embedding is the `blocked` outcome:
  while a writer holds the lock and waits, no progress is possible within
  the call being modelled.
* `debug_assert!` lines are debug-only and are not part of the embedded
  behaviour.
* The byte length of an abstract user key is supplied as a function
  `keyLen : K → Nat` wherever the source takes `key.user_key.key().len()`.
* The error type `crate::error::Error` and the table handle `ScTable` are
  external to the core and are embedded as type parameters `E` and `T`.
-/

namespace Pr65

/-- Modelled from the spec: `TABLE_CATALOG_ITEM_SIZE`, the fixed per-entry
bookkeeping overhead, lives in the table-format module which is not part of
the given tree; spec §8 (scenario 7) fixes the per-entry overhead at 24
bytes. -/
def TABLE_CATALOG_ITEM_SIZE : Nat := 24

/-- Modelled from the spec: `TABLE_MIN_SIZE`, the fixed base overhead, lives
in the table-format module which is not part of the given tree; spec §8
(scenario 7) fixes the base overhead at 64 bytes. -/
def TABLE_MIN_SIZE : Nat := 64

/-- A stored value: the bytes of a `Vec<u8>`. -/
abbrev Value : Type := List Nat

/-- `InternalKey<Comp>`: a sequence number (`u64`, embedded as `Nat`; only
its order is used) paired with a user key. -/
structure InternalKey (K : Type) where
  seq : Nat
  user_key : K
  deriving Repr, DecidableEq

/-- `InternalKey::cmp` (src/partition/mod.rs:90-99), parameterised by the
user-key comparison `ucmp` (the comparator behind `UserKey::cmp`,
src/partition/mod.rs:57-61): compare the sequence numbers; only on `eq`
consult `ucmp` on the user keys. -/
def InternalKey.keyCmp {K : Type} (ucmp : K → K → Ordering)
    (a b : InternalKey K) : Ordering :=
  let ord := compare a.seq b.seq
  if ord = Ordering.eq then ucmp a.user_key b.user_key else ord

/-- `MemTable<Comp> = BTreeMap<InternalKey<Comp>, Vec<u8>>`, embedded as an
association list. -/
abbrev MemTable (K : Type) : Type := List (InternalKey K × Value)

/-- `BTreeMap::insert`: replace the value when an equal key is present
(under the `LinearOrder` embedding of the comparator, comparator equality
of keys coincides with structural equality), otherwise add the binding. -/
def MemTable.insert {K : Type} [DecidableEq K] :
    MemTable K → InternalKey K → Value → MemTable K
  | [], k, v => [(k, v)]
  | (k0, v0) :: rest, k, v =>
    if k0 = k then (k, v) :: rest
    else (k0, v0) :: MemTable.insert rest k v

/-- Modelled from the spec: `Level` (src/partition/level.rs is not in the
given tree); spec §4.8 describes it as an ordered list of table file handles
whose `add_file(table)` appends. A level is a `List T` of table handles. -/
def Level.add_file {T : Type} (level : List T) (t : T) : List T :=
  level ++ [t]

/-- `PartitionData<Comp>` (src/partition/mod.rs:229-242): the mutable state
of one partition.  The `options` reference is dropped from the state; the
one field the embedded operations read from it (`options.table_size`) is
passed explicitly to `ArcPartition.write`. -/
structure PartitionData (K E T : Type) where
  mem_table : MemTable K
  mem_table_data_size : Nat
  imm_table : Option (MemTable K)
  levels : List (List T)
  lower_bound : Option K
  upper_bound : Option K
  background_error : Option E

/-- `PartitionData::new` (src/partition/mod.rs:244-256): empty tables, zero
size, no levels, no bounds, no fault. -/
def PartitionData.new {K E T : Type} : PartitionData K E T :=
  { mem_table := []
    mem_table_data_size := 0
    imm_table := none
    levels := []
    lower_bound := none
    upper_bound := none
    background_error := none }

/-- `PartitionData::background_error` (src/partition/mod.rs:258-264): return
a clone of the sticky fault as `Err`, or `Ok(())`; the state is read through
a shared reference and is unchanged. -/
def PartitionData.backgroundErrorResult {K E T : Type}
    (s : PartitionData K E T) : Except E Unit :=
  match s.background_error with
  | some e => Except.error e
  | none => Except.ok ()

/-- `PartitionData::record_background_error` (src/partition/mod.rs:266-268):
`Option::replace` always overwrites the slot. -/
def PartitionData.record_background_error {K E T : Type}
    (s : PartitionData K E T) (e : E) : PartitionData K E T :=
  { s with background_error := some e }

/-- `PartitionData::has_imm` (src/partition/mod.rs:270-272). -/
def PartitionData.has_imm {K E T : Type} (s : PartitionData K E T) : Bool :=
  s.imm_table.isSome

/-- `PartitionData::replace_imm_with_table` (src/partition/mod.rs:286-289):
take the pending-flush buffer out of its slot, then `self.levels[0]`
`.add_file(table)`.  Indexing `levels[0]` of an empty level vector panics,
embedded as `none`. -/
def PartitionData.replace_imm_with_table {K E T : Type}
    (s : PartitionData K E T) (t : T) : Option (PartitionData K E T) :=
  match s.levels with
  | [] => none
  | l0 :: rest =>
    some { s with imm_table := none, levels := Level.add_file l0 t :: rest }

/-- `PartitionData::memtable_put` (src/partition/mod.rs:291-302): when both
bounds are absent, set both to the inserted user key; otherwise compare
against `lower_bound.as_ref().unwrap()` (panic, i.e. `none`, when absent)
and, failing that test, against `upper_bound.as_ref().unwrap()`; finally
insert the pair into the mem table.  `mem_table_data_size` is not touched
by the source, so it is not touched here. -/
def PartitionData.memtable_put {K E T : Type} [LinearOrder K]
    (s : PartitionData K E T) (key : InternalKey K) (value : Value) :
    Option (PartitionData K E T) :=
  match s.lower_bound, s.upper_bound with
  | none, none =>
    some { s with lower_bound := some key.user_key
                  upper_bound := some key.user_key
                  mem_table := MemTable.insert s.mem_table key value }
  | some lb, some ub =>
    if key.user_key < lb then
      some { s with lower_bound := some key.user_key
                    mem_table := MemTable.insert s.mem_table key value }
    else if ub < key.user_key then
      some { s with upper_bound := some key.user_key
                    mem_table := MemTable.insert s.mem_table key value }
    else
      some { s with mem_table := MemTable.insert s.mem_table key value }
  | some lb, none =>
    if key.user_key < lb then
      some { s with lower_bound := some key.user_key
                    mem_table := MemTable.insert s.mem_table key value }
    else none
  | none, some _ => none

/-- `PartitionData::convert_mem_to_imm` (src/partition/mod.rs:304-307): move
the active mem table into the pending-flush slot and install a fresh empty
one. -/
def PartitionData.convert_mem_to_imm {K E T : Type}
    (s : PartitionData K E T) : PartitionData K E T :=
  { s with mem_table := [], imm_table := some s.mem_table }

/-- `PartitionData::memtable_size` (src/partition/mod.rs:309-311). -/
def PartitionData.memtable_size {K E T : Type}
    (s : PartitionData K E T) : Nat :=
  s.mem_table_data_size + s.mem_table.length * TABLE_CATALOG_ITEM_SIZE
    + TABLE_MIN_SIZE

/-- `PartitionData::bounds` (src/partition/mod.rs:313-315). -/
def PartitionData.bounds {K E T : Type}
    (s : PartitionData K E T) : Option K × Option K :=
  (s.lower_bound, s.upper_bound)

/-- `kv_pair_size` (src/partition/mod.rs:196-199): user-key byte length plus
value byte length plus the per-entry catalog overhead. -/
def kv_pair_size {K : Type} (keyLen : K → Nat)
    (key : InternalKey K) (value : Value) : Nat :=
  keyLen key.user_key + value.length + TABLE_CATALOG_ITEM_SIZE

/-- The possible outcomes of one `ArcPartition::write` call in the
sequential embedding: a return with the `Result` value and the post state,
a block on the condition variable (buffer full and a flush outstanding), or
a panic inside `memtable_put`. -/
inductive WriteOutcome (K E T : Type) where
  | ret : Except E Unit → PartitionData K E T → WriteOutcome K E T
  | blocked : WriteOutcome K E T
  | panicked : WriteOutcome K E T

/-- Apply a state transformation under a `ret` outcome. -/
def WriteOutcome.mapState {K E T : Type}
    (f : PartitionData K E T → PartitionData K E T) :
    WriteOutcome K E T → WriteOutcome K E T
  | .ret r s => .ret r (f s)
  | .blocked => .blocked
  | .panicked => .panicked

/-- `ArcPartition::write` (src/partition/mod.rs:205-221): admission loop
under the partition lock.  If the pair fits, insert; else if a flush is
pending, wait on the condition variable (`blocked` — within one call no
other thread can change the locked state); else freeze the active buffer
and insert into the fresh one.  The loop returns `Ok(())`.
`tableSize` is `partition.options.table_size`. -/
def ArcPartition.write {K E T : Type} [LinearOrder K]
    (keyLen : K → Nat) (tableSize : Nat) (s : PartitionData K E T)
    (key : InternalKey K) (value : Value) : WriteOutcome K E T :=
  if s.memtable_size + kv_pair_size keyLen key value ≤ tableSize then
    match s.memtable_put key value with
    | some s2 => .ret (Except.ok ()) s2
    | none => .panicked
  else if s.has_imm then
    .blocked
  else
    match s.convert_mem_to_imm.memtable_put key value with
    | some s2 => .ret (Except.ok ()) s2
    | none => .panicked

/-- `Partition::partial_cmp` (src/partition/mod.rs:143-158): read both
partitions' bounds and compare ranges.  Every branch unwraps the bounds it
touches (`self_upper`/`other_lower` first, then on the second test
`self_lower`/`other_upper`); an absent bound panics, embedded as the outer
`none`.  `Some .lt` / `Some .gt` / `some none` are the source's
`Some(Less)` / `Some(Greater)` / `None`. -/
def Partition.partialCmp {K E T : Type} [LinearOrder K]
    (p q : PartitionData K E T) : Option (Option Ordering) :=
  match p.upper_bound, q.lower_bound with
  | some self_upper, some other_lower =>
    if compare self_upper other_lower = Ordering.lt then
      some (some Ordering.lt)
    else
      match p.lower_bound, q.upper_bound with
      | some self_lower, some other_upper =>
        if compare self_lower other_upper = Ordering.gt then
          some (some Ordering.gt)
        else
          some none
      | _, _ => none
  | _, _ => none

/-- Fold `memtable_put` over a list of key/value pairs, propagating a panic. -/
def putAll {K E T : Type} [LinearOrder K]
    (s : PartitionData K E T) : List (InternalKey K × Value) →
    Option (PartitionData K E T)
  | [] => some s
  | (k, v) :: rest => (s.memtable_put k v).bind fun s2 => putAll s2 rest

/-- The minimum of `x :: xs` under the linear order. -/
def listMin {K : Type} [LinearOrder K] (x : K) (xs : List K) : K :=
  xs.foldl min x

/-- The maximum of `x :: xs` under the linear order. -/
def listMax {K : Type} [LinearOrder K] (x : K) (xs : List K) : K :=
  xs.foldl max x

/-- A partition state whose observed key-range bounds are `[lo, hi]`, as
after a sequence of inserts whose minimum user key is `lo` and maximum is
`hi`; used to state the range-comparison claims. -/
def boundedPartition {K E T : Type} (lo hi : K) : PartitionData K E T :=
  { PartitionData.new with lower_bound := some lo, upper_bound := some hi }

/-! ### Helper lemmas -/

/-- Inserting into the mem table adds at most one binding. -/
theorem MemTable.insert_length_le {K : Type} [DecidableEq K]
    (m : MemTable K) (k : InternalKey K) (v : Value) :
    (MemTable.insert m k v).length ≤ m.length + 1 := by
  induction m with
  | nil => simp [MemTable.insert]
  | cons kv rest ih =>
    obtain ⟨k0, v0⟩ := kv
    by_cases h : k0 = k
    · simp [MemTable.insert, h]
    · simp [MemTable.insert, h]
      omega

/-- When `memtable_put` returns, it has inserted the pair into the mem table
and has touched no field other than the bounds. -/
theorem memtable_put_frame {K E T : Type} [LinearOrder K]
    (s : PartitionData K E T) (key : InternalKey K) (value : Value)
    (s2 : PartitionData K E T) (h : s.memtable_put key value = some s2) :
    s2.mem_table = MemTable.insert s.mem_table key value ∧
    s2.mem_table_data_size = s.mem_table_data_size ∧
    s2.imm_table = s.imm_table ∧
    s2.levels = s.levels ∧
    s2.background_error = s.background_error := by
  unfold PartitionData.memtable_put at h
  split at h <;> try split_ifs at h
  all_goals first
    | (injection h with h; subst h; exact ⟨rfl, rfl, rfl, rfl, rfl⟩)
    | simp at h

/-- `memtable_put` does not panic on a state satisfying the both-or-neither
bounds invariant (`debug_bounds_sanity_check`, src/partition/mod.rs:327-329). -/
theorem memtable_put_isSome {K E T : Type} [LinearOrder K]
    (s : PartitionData K E T) (key : InternalKey K) (value : Value)
    (hb : s.lower_bound.isSome = s.upper_bound.isSome) :
    ∃ s2, s.memtable_put key value = some s2 := by
  unfold PartitionData.memtable_put
  cases hl : s.lower_bound with
  | none =>
    cases hu : s.upper_bound with
    | none => exact ⟨_, rfl⟩
    | some ub => rw [hl, hu] at hb; simp at hb
  | some lb =>
    cases hu : s.upper_bound with
    | none => rw [hl, hu] at hb; simp at hb
    | some ub => dsimp only; split_ifs <;> exact ⟨_, rfl⟩

/-- On a state with both bounds set in order, `memtable_put` returns and the
new bounds are the old ones widened to the inserted user key. -/
theorem memtable_put_bounds_minmax {K E T : Type} [LinearOrder K]
    (s : PartitionData K E T) (key : InternalKey K) (value : Value)
    (lb ub : K) (hl : s.lower_bound = some lb) (hu : s.upper_bound = some ub)
    (hord : lb ≤ ub) :
    ∃ s2, s.memtable_put key value = some s2 ∧
      s2.lower_bound = some (min lb key.user_key) ∧
      s2.upper_bound = some (max ub key.user_key) := by
  unfold PartitionData.memtable_put
  rw [hl, hu]
  dsimp only
  by_cases h1 : key.user_key < lb
  · rw [if_pos h1]
    exact ⟨_, rfl, by simp [min_eq_right h1.le],
      by simp [max_eq_left (h1.le.trans hord)]⟩
  · rw [if_neg h1]
    by_cases h2 : ub < key.user_key
    · rw [if_pos h2]
      exact ⟨_, rfl, by simp [min_eq_left (not_lt.mp h1)],
        by simp [max_eq_right h2.le]⟩
    · rw [if_neg h2]
      exact ⟨_, rfl, by simp [min_eq_left (not_lt.mp h1)],
        by simp [max_eq_left (not_lt.mp h2)]⟩

/-- Folding `memtable_put` over a list widens bounds to the running minimum
and maximum of the inserted user keys. -/
theorem putAll_bounds_minmax {K E T : Type} [LinearOrder K]
    (ks : List (InternalKey K × Value)) :
    ∀ (s : PartitionData K E T) (lb ub : K),
      s.lower_bound = some lb → s.upper_bound = some ub → lb ≤ ub →
      ∃ s2, putAll s ks = some s2 ∧
        s2.lower_bound = some (listMin lb (ks.map fun kv => kv.1.user_key)) ∧
        s2.upper_bound = some (listMax ub (ks.map fun kv => kv.1.user_key)) := by
  induction ks with
  | nil =>
    intro s lb ub hl hu _
    exact ⟨s, rfl, by simpa [listMin] using hl, by simpa [listMax] using hu⟩
  | cons kv rest ih =>
    intro s lb ub hl hu hord
    obtain ⟨k, v⟩ := kv
    obtain ⟨s1, hput, hl1, hu1⟩ := memtable_put_bounds_minmax s k v lb ub hl hu hord
    have hord1 : min lb k.user_key ≤ max ub k.user_key :=
      le_trans (min_le_left _ _) (le_trans hord (le_max_left _ _))
    obtain ⟨s2, hrest, hl2, hu2⟩ := ih s1 _ _ hl1 hu1 hord1
    refine ⟨s2, ?_, ?_, ?_⟩
    · simp [putAll, hput, hrest]
    · simpa [listMin] using hl2
    · simpa [listMax] using hu2

/-- `memtable_put` commutes with overwriting the background-error slot: it
neither reads nor writes that field. -/
theorem memtable_put_set_error {K E T : Type} [LinearOrder K]
    (s : PartitionData K E T) (key : InternalKey K) (value : Value)
    (be : Option E) :
    ({ s with background_error := be } : PartitionData K E T).memtable_put
        key value =
      (s.memtable_put key value).map
        fun s2 => { s2 with background_error := be } := by
  unfold PartitionData.memtable_put
  dsimp only
  cases hl : s.lower_bound <;> cases hu : s.upper_bound <;> dsimp only <;>
    (try split_ifs) <;> rfl

/-! ### The claims -/

/-- C1 (code_bug): the spec states that `memtable_size` is the accumulated
payload (key length + value length per entry) plus per-entry and base
overheads, and that a `memtable_put` grows it by at least the pair's payload.
The source never adds anything to `mem_table_data_size` (no statement of
`memtable_put`, src/partition/mod.rs:291-302, touches it), so the size
estimate counts only `TABLE_CATALOG_ITEM_SIZE` per entry: storing key `0`
(zero key bytes) with a 25-byte value into a fresh partition grows
`memtable_size` by exactly 24, strictly less than the 25 payload bytes the
claim demands. -/
theorem claim_C1_size_ignores_payload :
    ∃ s2, (PartitionData.new (K := Nat) (E := Unit) (T := Unit)).memtable_put
        ⟨0, 0⟩ (List.replicate 25 0) = some s2 ∧
      s2.memtable_size =
        (PartitionData.new (K := Nat) (E := Unit) (T := Unit)).memtable_size
          + TABLE_CATALOG_ITEM_SIZE ∧
      s2.memtable_size <
        (PartitionData.new (K := Nat) (E := Unit) (T := Unit)).memtable_size
          + (0 + (List.replicate 25 (0 : Nat)).length) :=
  ⟨_, rfl, by decide, by decide⟩

/-- C2 (code_bug): after the first freeze of a fresh partition the
pending-flush buffer is present, yet `replace_imm_with_table` panics
(embedded: returns `none`) instead of clearing the slot and appending the
table to level 0, because `PartitionData::new` initialises `levels` to an
empty vector and `replace_imm_with_table` indexes `self.levels[0]`. -/
theorem claim_C2_install_panics_on_initial_state :
    (PartitionData.new (K := Nat) (E := Unit) (T := Nat)).convert_mem_to_imm.has_imm
        = true ∧
    (PartitionData.new (K := Nat) (E := Unit) (T := Nat)).convert_mem_to_imm.replace_imm_with_table
        0 = none :=
  ⟨rfl, rfl⟩

/-- C4 (confirmed): `InternalKey` ordering compares sequence numbers first;
when they differ the result is the sequence-number comparison and is the same
for every user-key comparator (the comparator is never consulted); only when
the sequence numbers are equal is the comparator's verdict on the user keys
returned. -/
theorem claim_C4_seq_major_ordering {K : Type}
    (ucmp ucmp2 : K → K → Ordering) (a b : InternalKey K) :
    (a.seq ≠ b.seq →
      InternalKey.keyCmp ucmp a b = compare a.seq b.seq ∧
      InternalKey.keyCmp ucmp a b = InternalKey.keyCmp ucmp2 a b) ∧
    (a.seq = b.seq →
      InternalKey.keyCmp ucmp a b = ucmp a.user_key b.user_key) := by
  constructor
  · intro hne
    have h : compare a.seq b.seq ≠ Ordering.eq := by
      simpa [compare_eq_iff_eq] using hne
    simp [InternalKey.keyCmp, h]
  · intro heq
    have h : compare a.seq b.seq = Ordering.eq := compare_eq_iff_eq.mpr heq
    simp [InternalKey.keyCmp, h]

/-- C8 (confirmed): the background-fault slot is sticky: recording `e1` then
`e2` leaves the slot returning `e2` (and not `e1`, when they differ); the
query is a pure read of the state, so it keeps returning `e2` on every
subsequent call until a further `record_background_error` overwrites the
slot again. -/
theorem claim_C8_sticky_fault {K E T : Type}
    (s : PartitionData K E T) (e1 e2 : E) :
    ((s.record_background_error e1).record_background_error e2).backgroundErrorResult
        = Except.error e2 ∧
    (e1 ≠ e2 →
      ((s.record_background_error e1).record_background_error e2).backgroundErrorResult
        ≠ Except.error e1) ∧
    (∀ e3 : E,
      (((s.record_background_error e1).record_background_error e2).record_background_error
          e3).backgroundErrorResult = Except.error e3) := by
  refine ⟨rfl, ?_, fun e3 => rfl⟩
  intro hne h
  injection h with h
  exact hne h.symm

/-- C10 (confirmed): the partition range comparison is not total over all
states: when either partition has no bounds set (no key ever inserted, as in
a fresh `PartitionData.new`), `Partition::partial_cmp` unwraps an absent
bound and panics (embedded: returns `none`) instead of producing a
comparison result. -/
theorem claim_C10_compare_unbounded_panics {K E T : Type} [LinearOrder K]
    (p q : PartitionData K E T)
    (h : (p.lower_bound = none ∧ p.upper_bound = none) ∨
         (q.lower_bound = none ∧ q.upper_bound = none)) :
    Partition.partialCmp p q = none := by
  unfold Partition.partialCmp
  rcases h with ⟨-, hu⟩ | ⟨hl, -⟩
  · rw [hu]
  · rw [hl]
    cases p.upper_bound <;> rfl

/-- Witness for C10: comparing two freshly created partitions panics. -/
theorem claim_C10_witness :
    Partition.partialCmp (PartitionData.new (K := Nat) (E := Unit) (T := Unit))
      (PartitionData.new (K := Nat) (E := Unit) (T := Unit)) = none :=
  claim_C10_compare_unbounded_panics _ _ (Or.inl ⟨rfl, rfl⟩)

/-- The range comparison of two bounded partitions, in closed form. -/
theorem partialCmp_boundedPartition {K E T : Type} [LinearOrder K]
    (a b c d : K) :
    Partition.partialCmp (boundedPartition a b : PartitionData K E T)
        (boundedPartition c d) =
      if b < c then some (some Ordering.lt)
      else if d < a then some (some Ordering.gt)
      else some none := by
  unfold Partition.partialCmp boundedPartition
  dsimp only
  by_cases h1 : b < c
  · rw [if_pos (compare_lt_iff_lt.mpr h1), if_pos h1]
  · rw [if_neg (fun h => h1 (compare_lt_iff_lt.mp h)), if_neg h1]
    by_cases h2 : d < a
    · rw [if_pos (compare_gt_iff_gt.mpr h2), if_pos h2]
    · rw [if_neg (fun h => h2 (compare_gt_iff_gt.mp h)), if_neg h2]

/-- C3 (confirmed): writing user keys k1..kn into a fresh partition leaves
`bounds()` at `(min(k1..kn), max(k1..kn))` under the comparator; the very
first insert sets both bounds to the inserted key; and an insert into a
partition with bounds `[lb, ub]` moves the lower bound exactly when the new
user key is strictly below `lb` and the upper bound exactly when it is
strictly above `ub`. -/
theorem claim_C3_bounds_are_minmax {K E T : Type} [LinearOrder K]
    (k0 : InternalKey K) (v0 : Value) (rest : List (InternalKey K × Value)) :
    (∃ s, putAll (PartitionData.new (K := K) (E := E) (T := T)) ((k0, v0) :: rest)
        = some s ∧
      s.bounds = (some (listMin k0.user_key (rest.map fun kv => kv.1.user_key)),
                  some (listMax k0.user_key (rest.map fun kv => kv.1.user_key)))) ∧
    (∀ s1, (PartitionData.new (K := K) (E := E) (T := T)).memtable_put k0 v0
        = some s1 →
      s1.bounds = (some k0.user_key, some k0.user_key)) ∧
    (∀ (s : PartitionData K E T) (lb ub : K) (k : InternalKey K) (v : Value)
        (s2 : PartitionData K E T),
      s.lower_bound = some lb → s.upper_bound = some ub → lb ≤ ub →
      s.memtable_put k v = some s2 →
      s2.lower_bound = (if k.user_key < lb then some k.user_key else some lb) ∧
      s2.upper_bound = (if ub < k.user_key then some k.user_key else some ub)) := by
  refine ⟨?_, ?_, ?_⟩
  · have hput : (PartitionData.new (K := K) (E := E) (T := T)).memtable_put k0 v0
        = some { PartitionData.new (K := K) (E := E) (T := T) with
                   lower_bound := some k0.user_key
                   upper_bound := some k0.user_key
                   mem_table := MemTable.insert [] k0 v0 } := rfl
    obtain ⟨s2, hrest, hl2, hu2⟩ :=
      putAll_bounds_minmax (K := K) (E := E) (T := T) rest
        { PartitionData.new with
            lower_bound := some k0.user_key
            upper_bound := some k0.user_key
            mem_table := MemTable.insert [] k0 v0 }
        k0.user_key k0.user_key rfl rfl le_rfl
    refine ⟨s2, ?_, ?_⟩
    · simp [putAll, hput, hrest]
    · simp [PartitionData.bounds, hl2, hu2]
  · intro s1 h
    have hput : (PartitionData.new (K := K) (E := E) (T := T)).memtable_put k0 v0
        = some { PartitionData.new (K := K) (E := E) (T := T) with
                   lower_bound := some k0.user_key
                   upper_bound := some k0.user_key
                   mem_table := MemTable.insert [] k0 v0 } := rfl
    rw [hput] at h
    injection h with h
    subst h
    rfl
  · intro s lb ub k v s2 hl hu hord hput
    obtain ⟨s3, hput3, hl3, hu3⟩ := memtable_put_bounds_minmax s k v lb ub hl hu hord
    rw [hput] at hput3
    injection hput3 with he
    subst he
    constructor
    · rw [hl3]
      by_cases h : k.user_key < lb
      · simp [h, min_eq_right h.le]
      · simp [h, min_eq_left (not_lt.mp h)]
    · rw [hu3]
      by_cases h : ub < k.user_key
      · simp [h, max_eq_right h.le]
      · simp [h, max_eq_left (not_lt.mp h)]

/-- C5 (confirmed): immediately after any `write` call that returns, either
the active buffer's size estimate is at most the `table_size` threshold, or
the active buffer holds exactly the one pair this write just inserted (the
post-freeze admission of an oversized singleton); and a write into a
partition with no pending flush (and intact both-or-neither bounds) is never
rejected — it returns `Ok(())`. -/
theorem claim_C5_capacity_bound {K E T : Type} [LinearOrder K]
    (keyLen : K → Nat) (tableSize : Nat) (s : PartitionData K E T)
    (key : InternalKey K) (value : Value) :
    (∀ (r : Except E Unit) (s2 : PartitionData K E T),
      ArcPartition.write keyLen tableSize s key value = WriteOutcome.ret r s2 →
      s2.memtable_size ≤ tableSize ∨ s2.mem_table = [(key, value)]) ∧
    (s.has_imm = false → s.lower_bound.isSome = s.upper_bound.isSome →
      ∃ s2, ArcPartition.write keyLen tableSize s key value =
        WriteOutcome.ret (Except.ok ()) s2) := by
  constructor
  · intro r s2 hw
    unfold ArcPartition.write at hw
    split_ifs at hw with hfit himm
    · revert hw
      cases hput : s.memtable_put key value with
      | none => intro hw; exact WriteOutcome.noConfusion hw
      | some s3 =>
        intro hw
        injection hw with h1 h2
        subst h2
        left
        obtain ⟨hm, hd, -, -, -⟩ := memtable_put_frame s key value s3 hput
        have hlen := MemTable.insert_length_le s.mem_table key value
        rw [← hm] at hlen
        simp only [PartitionData.memtable_size, kv_pair_size,
          TABLE_CATALOG_ITEM_SIZE, TABLE_MIN_SIZE] at hfit ⊢
        rw [hd]
        omega
    · revert hw
      cases hput : s.convert_mem_to_imm.memtable_put key value with
      | none => intro hw; exact WriteOutcome.noConfusion hw
      | some s3 =>
        intro hw
        injection hw with h1 h2
        subst h2
        right
        obtain ⟨hm, -, -, -, -⟩ := memtable_put_frame _ key value s3 hput
        rw [hm]
        rfl
  · intro himm hb
    unfold ArcPartition.write
    split_ifs with hfit h2
    · obtain ⟨s3, hput⟩ := memtable_put_isSome s key value hb
      exact ⟨s3, by rw [hput]⟩
    · exact absurd h2 (by simp [himm])
    · have hb2 : s.convert_mem_to_imm.lower_bound.isSome
          = s.convert_mem_to_imm.upper_bound.isSome := hb
      obtain ⟨s3, hput⟩ := memtable_put_isSome s.convert_mem_to_imm key value hb2
      exact ⟨s3, by rw [hput]⟩

/-- C6 (confirmed): `write` blocks exactly when the pair does not fit and a
pending-flush buffer exists; and whenever a returning `write` changed the
pending-flush slot, the slot was empty before (the freeze happens only with
`has_imm()` false) and now holds the frozen active buffer.  With the slot a
single `Option`, two pending-flush buffers are unrepresentable in
`PartitionData`. -/
theorem claim_C6_at_most_one_pending_flush {K E T : Type} [LinearOrder K]
    (keyLen : K → Nat) (tableSize : Nat) (s : PartitionData K E T)
    (key : InternalKey K) (value : Value) :
    (ArcPartition.write keyLen tableSize s key value = WriteOutcome.blocked ↔
      ¬ s.memtable_size + kv_pair_size keyLen key value ≤ tableSize ∧
        s.has_imm = true) ∧
    (∀ (r : Except E Unit) (s2 : PartitionData K E T),
      ArcPartition.write keyLen tableSize s key value = WriteOutcome.ret r s2 →
      s2.imm_table ≠ s.imm_table →
      s.imm_table = none ∧ s2.imm_table = some s.mem_table) := by
  constructor
  · unfold ArcPartition.write
    split_ifs with hfit himm
    · cases hput : s.memtable_put key value with
      | none => simp [hput, hfit]
      | some s3 => simp [hput, hfit]
    · simp [hfit, himm]
    · cases hput : s.convert_mem_to_imm.memtable_put key value with
      | none => simp [hput, himm]
      | some s3 => simp [hput, himm]
  · intro r s2 hw hchanged
    unfold ArcPartition.write at hw
    split_ifs at hw with hfit himm
    · revert hw
      cases hput : s.memtable_put key value with
      | none => intro hw; exact WriteOutcome.noConfusion hw
      | some s3 =>
        intro hw
        injection hw with h1 h2
        subst h2
        obtain ⟨-, -, hi, -, -⟩ := memtable_put_frame s key value s3 hput
        exact absurd hi hchanged
    · revert hw
      cases hput : s.convert_mem_to_imm.memtable_put key value with
      | none => intro hw; exact WriteOutcome.noConfusion hw
      | some s3 =>
        intro hw
        injection hw with h1 h2
        subst h2
        obtain ⟨-, -, hi, -, -⟩ := memtable_put_frame _ key value s3 hput
        have hnone : s.imm_table = none := by
          rcases h : s.imm_table with _ | m
          · rfl
          · exact absurd (by simp [PartitionData.has_imm, h]) himm
        exact ⟨hnone, hi⟩

/-- C7 (confirmed): for partitions with both bounds set in order
(`[a, b]` and `[c, d]`), the range comparison returns `Less` exactly when
`b < c`, `Greater` exactly when `d < a`, and incomparable (`None`) exactly
otherwise; in particular for disjoint ranges with `b < c` the two directed
comparisons return `Less` and `Greater` respectively (antisymmetry). -/
theorem claim_C7_range_order {K E T : Type} [LinearOrder K]
    (a b c d : K) (hab : a ≤ b) (hcd : c ≤ d) :
    (Partition.partialCmp (boundedPartition a b : PartitionData K E T)
        (boundedPartition c d) = some (some Ordering.lt) ↔ b < c) ∧
    (Partition.partialCmp (boundedPartition a b : PartitionData K E T)
        (boundedPartition c d) = some (some Ordering.gt) ↔ d < a) ∧
    (Partition.partialCmp (boundedPartition a b : PartitionData K E T)
        (boundedPartition c d) = some none ↔ ¬ b < c ∧ ¬ d < a) ∧
    (b < c →
      Partition.partialCmp (boundedPartition a b : PartitionData K E T)
          (boundedPartition c d) = some (some Ordering.lt) ∧
      Partition.partialCmp (boundedPartition c d : PartitionData K E T)
          (boundedPartition a b) = some (some Ordering.gt)) := by
  have hpq := partialCmp_boundedPartition (E := E) (T := T) a b c d
  have hqp := partialCmp_boundedPartition (E := E) (T := T) c d a b
  have hexcl : b < c → ¬ d < a := fun h1 h2 =>
    absurd (lt_trans (lt_of_le_of_lt hab h1) (lt_of_le_of_lt hcd h2)) (lt_irrefl a)
  refine ⟨?_, ?_, ?_, ?_⟩
  · rw [hpq]
    by_cases h1 : b < c
    · simp [h1]
    · by_cases h2 : d < a <;> simp [h1, h2]
  · rw [hpq]
    by_cases h1 : b < c
    · simp [h1, hexcl h1]
    · by_cases h2 : d < a <;> simp [h1, h2]
  · rw [hpq]
    by_cases h1 : b < c
    · simp [h1]
    · by_cases h2 : d < a <;> simp [h1, h2]
  · intro h1
    have h2 : ¬ d < a := hexcl h1
    constructor
    · rw [hpq, if_pos h1]
    · rw [hqp, if_neg (fun h => h2 h), if_pos h1]

/-- Witness for C7: ranges `[1, 2]` and `[3, 4]` compare `Less` one way and
`Greater` the other. -/
theorem claim_C7_witness :
    Partition.partialCmp (boundedPartition 1 2 : PartitionData Nat Unit Unit)
        (boundedPartition 3 4) = some (some Ordering.lt) ∧
    Partition.partialCmp (boundedPartition 3 4 : PartitionData Nat Unit Unit)
        (boundedPartition 1 2) = some (some Ordering.gt) :=
  (claim_C7_range_order 1 2 3 4 (by decide) (by decide)).2.2.2 (by decide)

/-- C9 (confirmed): whenever `write` returns, the returned `Result` is
`Ok(())`, whatever the partition state — in particular whatever the sticky
background-fault slot holds; and the whole admission path is independent of
that slot (it neither reads nor writes it): running `write` on a state with
any fault installed gives the same outcome with the fault carried through
unchanged. -/
theorem claim_C9_write_never_reports_fault {K E T : Type} [LinearOrder K]
    (keyLen : K → Nat) (tableSize : Nat) (s : PartitionData K E T)
    (key : InternalKey K) (value : Value) :
    (∀ (r : Except E Unit) (s2 : PartitionData K E T),
      ArcPartition.write keyLen tableSize s key value = WriteOutcome.ret r s2 →
      r = Except.ok ()) ∧
    (∀ be : Option E,
      ArcPartition.write keyLen tableSize
          ({ s with background_error := be } : PartitionData K E T) key value =
        (ArcPartition.write keyLen tableSize s key value).mapState
          fun s2 => { s2 with background_error := be }) := by
  constructor
  · intro r s2 hw
    unfold ArcPartition.write at hw
    split_ifs at hw with hfit himm
    · revert hw
      cases hput : s.memtable_put key value with
      | none => intro hw; exact WriteOutcome.noConfusion hw
      | some s3 => intro hw; injection hw with h1 h2; exact h1.symm
    · revert hw
      cases hput : s.convert_mem_to_imm.memtable_put key value with
      | none => intro hw; exact WriteOutcome.noConfusion hw
      | some s3 => intro hw; injection hw with h1 h2; exact h1.symm
  · intro be
    have hput1 := memtable_put_set_error s key value be
    have hput2 := memtable_put_set_error s.convert_mem_to_imm key value be
    unfold ArcPartition.write
    rw [show ({ s with background_error := be } : PartitionData K E T).memtable_size
          = s.memtable_size from rfl,
        show ({ s with background_error := be } : PartitionData K E T).has_imm
          = s.has_imm from rfl]
    split_ifs with h1 h2
    · rw [hput1]
      cases hput : s.memtable_put key value <;> simp [hput, WriteOutcome.mapState]
    · rfl
    · rw [show ({ s with background_error := be } : PartitionData K E T).convert_mem_to_imm
            = ({ s.convert_mem_to_imm with background_error := be } : PartitionData K E T)
          from rfl, hput2]
      cases hput : s.convert_mem_to_imm.memtable_put key value <;>
        simp [hput, WriteOutcome.mapState]

end Pr65
